import Mathlib

/-!
Verification of pyGeoPressure's pressure-transform engine and `Well`
pressure lookup.

Source files embedded here:

* `src/porepressureprediction/pressure/pore_pressure.py` — the pure
  transforms `bowers`, `eaton`, `multivariate_virgin`,
  `invert_multivariate_virgin`, operating elementwise on numpy float64
  arrays.
* `src/pygeopressure/basic/well.py` — `Well.get_log` (the `ref == 'sea'`
  shift branch) and `Well._get_pressure` (depth lookup of pressure
  measurements against a hydrostatic array).

Embedding choices:

* numpy float64 scalars are modelled by `Fp`: NaN, +∞, −∞ or an exact
  finite real (rounding is ignored, signed zero is collapsed to `fin 0`).
  The arithmetic follows IEEE-754 / numpy elementwise semantics including
  NaN propagation, signed infinities, division by zero and the `pow`
  special cases (negative base with non-integral exponent gives NaN,
  `1 ** y = 1` for every `y`, `x ** 0 = 1` for every `x`, ...).
* numpy 1-d arrays are `List Fp`; the transforms recurse elementwise,
  truncating at the shorter list (all claims quantify over equal-length
  inputs, matching numpy's broadcasting contract).
* `Well._get_pressure` works on exact rationals: its arithmetic is only
  multiplication, comparison, `np.searchsorted` and `np.round(_, 3)`
  (round-half-to-even), all exactly representable over `ℚ`.  The
  hydrostatic array produced by `hydrostatic_pressure` (a module outside
  the two source files) is passed in as an opaque list, exactly as the
  claims treat it.
* Python control flow that can raise is made explicit: an uncaught
  exception is a distinguished result (`GPResult.raised`, or `none` for
  `get_log_sea`).
-/

open scoped Classical

noncomputable section

/-- An IEEE-754-style extended value: a numpy float64 datum is NaN, +∞,
−∞, or a finite real.  Rounding is ignored (finite values are exact
reals) and signed zero is collapsed to `fin 0`. -/
inductive Fp where
  | nan  : Fp
  | pinf : Fp
  | ninf : Fp
  | fin  : ℝ → Fp

namespace Fp

/-- IEEE negation. -/
def neg : Fp → Fp
  | nan => nan
  | pinf => ninf
  | ninf => pinf
  | fin x => fin (-x)

/-- IEEE addition: NaN propagates, `+∞ + −∞ = NaN`. -/
def add : Fp → Fp → Fp
  | nan, nan | nan, pinf | nan, ninf | nan, fin _ => nan
  | pinf, nan | ninf, nan | fin _, nan => nan
  | pinf, ninf | ninf, pinf => nan
  | pinf, pinf => pinf
  | pinf, fin _ | fin _, pinf => pinf
  | ninf, ninf => ninf
  | ninf, fin _ | fin _, ninf => ninf
  | fin x, fin y => fin (x + y)

/-- IEEE subtraction, `x - y = x + (-y)`. -/
def sub (x y : Fp) : Fp := add x (neg y)

/-- IEEE multiplication: NaN propagates, `±∞ * 0 = NaN`. -/
def mul : Fp → Fp → Fp
  | nan, nan | nan, pinf | nan, ninf | nan, fin _ => nan
  | pinf, nan | ninf, nan | fin _, nan => nan
  | pinf, pinf | ninf, ninf => pinf
  | pinf, ninf | ninf, pinf => ninf
  | pinf, fin y | fin y, pinf => if 0 < y then pinf else if y < 0 then ninf else nan
  | ninf, fin y | fin y, ninf => if 0 < y then ninf else if y < 0 then pinf else nan
  | fin x, fin y => fin (x * y)

/-- IEEE division: NaN propagates, `∞ / ∞ = NaN`, `x / 0` is `±∞` for
finite `x ≠ 0` (numpy emits a warning and continues) and `0 / 0 = NaN`. -/
def div : Fp → Fp → Fp
  | nan, nan | nan, pinf | nan, ninf | nan, fin _ => nan
  | pinf, nan | ninf, nan | fin _, nan => nan
  | pinf, pinf | pinf, ninf | ninf, pinf | ninf, ninf => nan
  | pinf, fin y => if 0 ≤ y then pinf else ninf
  | ninf, fin y => if 0 ≤ y then ninf else pinf
  | fin _, pinf | fin _, ninf => fin 0
  | fin x, fin y => if y = 0 then (if x = 0 then nan else if 0 < x then pinf else ninf) else fin (x / y)

/-- IEEE `pow` (the semantics of numpy `**` on float64): `x ** 0 = 1` for
every `x` (NaN included), `1 ** y = 1` for every `y` (NaN included), a
negative finite base with a non-integral finite exponent gives NaN, with
an integral exponent the sign follows the exponent's parity, `0 ** y` is
`0` for `y > 0` and `+∞` for `y < 0`, and the infinite-base /
infinite-exponent cases follow the magnitude rules. -/
def pow : Fp → Fp → Fp
  | nan, fin y => if y = 0 then fin 1 else nan
  | pinf, fin y => if y = 0 then fin 1 else if 0 < y then pinf else fin 0
  | ninf, fin y =>
      if y = 0 then fin 1
      else if 0 < y then (if (⌊y⌋ : ℝ) = y ∧ Odd ⌊y⌋ then ninf else pinf)
      else fin 0
  | fin x, fin y =>
      if y = 0 then fin 1
      else if 0 < x then fin (x ^ y)
      else if x = 0 then (if 0 < y then fin 0 else pinf)
      else if (⌊y⌋ : ℝ) = y then fin ((if Odd ⌊y⌋ then (-1 : ℝ) else 1) * |x| ^ y)
      else nan
  | fin x, nan => if x = 1 then fin 1 else nan
  | fin x, pinf => if |x| < 1 then fin 0 else if |x| = 1 then fin 1 else pinf
  | fin x, ninf => if |x| < 1 then pinf else if |x| = 1 then fin 1 else fin 0
  | nan, nan | nan, pinf | nan, ninf => nan
  | pinf, nan | ninf, nan => nan
  | pinf, pinf | ninf, pinf => pinf
  | pinf, ninf | ninf, ninf => fin 0

instance : Neg Fp := ⟨Fp.neg⟩
instance : Add Fp := ⟨Fp.add⟩
instance : Sub Fp := ⟨Fp.sub⟩
instance : Mul Fp := ⟨Fp.mul⟩
instance : Div Fp := ⟨Fp.div⟩
instance : Pow Fp Fp := ⟨Fp.pow⟩

/-- A value is finite when it is `fin r` for some real `r` (neither NaN
nor an infinity). -/
def isFin : Fp → Prop
  | fin _ => True
  | nan => False
  | pinf => False
  | ninf => False

/-- A value is non-finite: NaN or one of the infinities. -/
def special (x : Fp) : Prop := x = pinf ∨ x = ninf ∨ x = nan

end Fp

/-!
## `pore_pressure.py` transforms

Elementwise embeddings of the numpy expressions.  Scalar coefficients are
`Fp` values; arrays are `List Fp`, consumed by structural recursion
(numpy requires equal lengths; the recursion truncates at the shorter
list, and the theorems quantify over equal-length inputs).
-/

/-- Effective stress of one sample in `eaton`
(`ves = (lithostatic - hydrostatic) * (v / vn)**n`,
`pore_pressure.py` line 76). -/
def eaton_ves (v vn hydrostatic lithostatic n : Fp) : Fp :=
  (lithostatic - hydrostatic) * (v / vn) ^ n

/-- One sample of `eaton` (`pressure = lithostatic - ves`,
`pore_pressure.py` line 77). -/
def eaton_elt (v vn hydrostatic lithostatic n : Fp) : Fp :=
  lithostatic - eaton_ves v vn hydrostatic lithostatic n

/-- `eaton(v, vn, hydrostatic, lithostatic, n)` of `pore_pressure.py`
(lines 53–78), elementwise over the four arrays. -/
def eaton : List Fp → List Fp → List Fp → List Fp → Fp → List Fp
  | vi :: v, vni :: vn, hi :: hydrostatic, li :: lithostatic, n =>
      eaton_elt vi vni hi li n :: eaton v vn hydrostatic lithostatic n
  | _, _, _, _, _ => []

/-- The loading-branch (virgin-curve inverse) effective stress of one
sample in `bowers`: `((v - 1524) / a)**(1 / b)` (`pore_pressure.py`
line 34; line 33 is the same formula applied to `vmax`). -/
def bowers_ves (v a b : Fp) : Fp :=
  ((v - Fp.fin 1524) / a) ^ (Fp.fin 1 / b)

/-- The unloading-branch effective stress of one sample in `bowers`:
`sigma_max * (((v - 1524) / a)**(1 / b) / sigma_max)**u`
(`pore_pressure.py` line 35). -/
def bowers_ves_fe (v a b u sm : Fp) : Fp :=
  sm * (bowers_ves v a b / sm) ^ u

/-- Recursion underlying `bowers`: sample `i` takes the loading branch
when `i < fe_idx` and the unloading branch otherwise (the slice
assignment `ves[fe_idx:] = ves_fe[fe_idx:]` of line 36), and the output
is `obp - ves` (line 37). -/
def bowersFrom (u : Fp) (fe_idx : ℕ) (a b sm : Fp) : ℕ → List Fp → List Fp → List Fp
  | i, vi :: v, oi :: obp =>
      (oi - (if i < fe_idx then bowers_ves vi a b else bowers_ves_fe vi a b u sm)) ::
        bowersFrom u fe_idx a b sm (i + 1) v obp
  | _, _, _ => []

/-- `bowers(v, obp, u, fe_idx, a, b, vmax)` of `pore_pressure.py`
(lines 12–37): `sigma_max = ((vmax - 1524) / a)**(1 / b)`, loading
effective stress below `fe_idx`, unloading at or above it, pore pressure
`obp - ves`. -/
def bowers (v obp : List Fp) (u : Fp) (fe_idx : ℕ) (a b vmax : Fp) : List Fp :=
  bowersFrom u fe_idx a b (bowers_ves vmax a b) 0 v obp

/-- `multivariate_virgin(sigma, phi, vsh, a_0, a_1, a_2, a_3, B)` of
`pore_pressure.py` (lines 106–110):
`a_0 - a_1 * phi - a_2 * vsh + a_3 * sigma**B`, elementwise. -/
def multivariate_virgin (sigma phi vsh a0 a1 a2 a3 B : Fp) : Fp :=
  a0 - a1 * phi - a2 * vsh + a3 * sigma ^ B

/-- `invert_multivariate_virgin(vel, phi, vsh, a_0, a_1, a_2, a_3, B)` of
`pore_pressure.py` (lines 85–104):
`((vel - a_0 + a_1 * phi + a_2 * vsh) / a_3)**(1 / B)`, elementwise. -/
def invert_multivariate_virgin (vel phi vsh a0 a1 a2 a3 B : Fp) : Fp :=
  ((vel - a0 + a1 * phi + a2 * vsh) / a3) ^ (Fp.fin 1 / B)

/-!
## `well.py` models

`Well._get_pressure` and the `ref == 'sea'` branch of `Well.get_log`.
Depths, coefficients and the hydrostatic array are exact rationals (the
only arithmetic on them is multiplication, comparison and rounding).
-/

/-- Round a rational to the nearest integer, ties to even — the rounding
mode of `np.round`. -/
def rne (x : ℚ) : ℤ :=
  if x - ⌊x⌋ < 1 / 2 then ⌊x⌋
  else if 1 / 2 < x - ⌊x⌋ then ⌊x⌋ + 1
  else if ⌊x⌋ % 2 = 0 then ⌊x⌋ else ⌊x⌋ + 1

/-- `np.round(x, 3)`: round to 3 decimal places, ties to even. -/
def round3 (x : ℚ) : ℚ := (rne (x * 1000) : ℚ) / 1000

/-- `np.searchsorted(a, v)` (default `side='left'`): the leftmost index
at which `v` can be inserted into the sorted array `a` preserving order,
i.e. the number of elements strictly below `v`. -/
def searchsorted (a : List ℚ) (v : ℚ) : ℕ :=
  a.countP (fun x => decide (x < v))

/-- The record looked up in `Well.params` under a pressure-source key:
a JSON object that may or may not carry `"depth"` and `"coef"` entries.
`none` on a field models the key being absent from the object. -/
structure ParamSet where
  depth : Option (List ℚ)
  coef : Option (List ℚ)

/-- Outcome of `Well._get_pressure`: an uncaught exception
(`KeyError` from `params[pres_key]` or `params[pres_key]["depth"]`,
or `IndexError` from `hydro[idx]`), the caught-`KeyError` empty `Log`,
or a `Log` with depth and data arrays. -/
inductive GPResult where
  | raised : GPResult
  | emptyLog : GPResult
  | log : List ℚ → List ℚ → GPResult
deriving DecidableEq

/-- The `for dp, co in zip(depth, coef)` loop of `Well._get_pressure`
(`well.py` lines 178–182): pairs with `dp > hydrodynamic` contribute
`(dp, hydro[np.searchsorted(obp_depth, dp)] * co)`; an out-of-bounds
lookup raises `IndexError` (modelled as `none`), aborting the whole
call.  Returns the accumulated `(pres_depth, pres_data)` lists. -/
def gp_loop (obp_depth hydro : List ℚ) (hydrodynamic : ℚ) :
    List (ℚ × ℚ) → Option (List ℚ × List ℚ)
  | [] => some ([], [])
  | (dp, co) :: rest =>
    if hydrodynamic < dp then
      match hydro[searchsorted obp_depth dp]? with
      | none => none
      | some hv =>
        match gp_loop obp_depth hydro hydrodynamic rest with
        | none => none
        | some (ds, vs) => some (dp :: ds, hv * co :: vs)
    else gp_loop obp_depth hydro hydrodynamic rest

/-- `Well._get_pressure(pres_key, hydrodynamic=...)` of `well.py`
(lines 163–189), with the default `ref=None`.

`pset` is `self.params[pres_key]` (`none` when the key is absent —
looked up outside any `try`, so absence raises a `KeyError`), `obp_depth`
the Overburden_Pressure log's depth array, `hydro` the array computed by
the external `hydrostatic_pressure` on `obp_depth` (passed in opaquely).
A present record without `"coef"` takes the handled `except KeyError`
path and returns an empty `Log`; otherwise the loop runs and the data
array is `np.round`ed to 3 decimals. -/
def get_pressure (pset : Option ParamSet) (obp_depth hydro : List ℚ)
    (hydrodynamic : ℚ) : GPResult :=
  match pset with
  | none => GPResult.raised
  | some ps =>
    match ps.depth with
    | none => GPResult.raised
    | some depth =>
      match ps.coef with
      | none => GPResult.emptyLog
      | some coef =>
        match gp_loop obp_depth hydro hydrodynamic (depth.zip coef) with
        | none => GPResult.raised
        | some (ds, vs) => GPResult.log ds (vs.map round3)

/-- The `ref == 'sea'` branch of `Well.get_log` (`well.py` lines
127–131), acting on the log's data array:

`shift = int(kelly_bushing // 0.1)`;
`shift_data = np.full_like(data, np.nan)`;
`shift_data[:-shift] = data[shift:]`.

The Python slice `[:-shift]` is the prefix of length `n - shift` for
`0 < shift`, the *empty* prefix for `shift = 0` (since `-0 = 0`), and the
prefix of length `min (-shift) n` for negative `shift`; `data[shift:]`
drops the first `shift` elements (or keeps the last `-shift` for negative
`shift`).  The numpy slice assignment succeeds when the source length
equals the target length or the source has length 1 (broadcast);
otherwise it raises `ValueError` (modelled as `none`). -/
def get_log_sea (data : List Fp) (kelly_bushing : ℚ) : Option (List Fp) :=
  let n := data.length
  let shift : ℤ := ⌊kelly_bushing / (1 / 10)⌋
  let tgtLen : ℕ :=
    if 0 < shift then n - min shift.toNat n
    else if shift = 0 then 0
    else min (-shift).toNat n
  let src : List Fp :=
    if 0 ≤ shift then data.drop (min shift.toNat n)
    else data.drop (n - min (-shift).toNat n)
  if src.length = tgtLen then
    some (src ++ (List.replicate n Fp.nan).drop tgtLen)
  else if src.length = 1 then
    some (List.replicate tgtLen (src.headD Fp.nan) ++ (List.replicate n Fp.nan).drop tgtLen)
  else none

/-!
## Basic lemmas about `Fp` arithmetic
-/

namespace Fp

@[simp] theorem isFin_fin (x : ℝ) : (fin x).isFin := trivial

@[simp] theorem isFin_nan : ¬ nan.isFin := fun h => h

@[simp] theorem isFin_pinf : ¬ pinf.isFin := fun h => h

@[simp] theorem isFin_ninf : ¬ ninf.isFin := fun h => h

theorem not_isFin_of_special {x : Fp} (h : x.special) : ¬ x.isFin := by
  rcases h with rfl | rfl | rfl <;> simp

@[simp] theorem fin_add_fin (x y : ℝ) : fin x + fin y = fin (x + y) := rfl

@[simp] theorem pinf_add_fin (y : ℝ) : pinf + fin y = pinf := rfl

@[simp] theorem fin_add_pinf (x : ℝ) : fin x + pinf = pinf := rfl

@[simp] theorem ninf_add_fin (y : ℝ) : ninf + fin y = ninf := rfl

@[simp] theorem fin_add_ninf (x : ℝ) : fin x + ninf = ninf := rfl

@[simp] theorem fin_sub_fin (x y : ℝ) : fin x - fin y = fin (x - y) := by
  show add (fin x) (neg (fin y)) = fin (x - y)
  simp [add, neg, sub_eq_add_neg]

@[simp] theorem fin_sub_pinf (x : ℝ) : fin x - pinf = ninf := rfl

@[simp] theorem fin_sub_ninf (x : ℝ) : fin x - ninf = pinf := rfl

@[simp] theorem fin_sub_nan (x : ℝ) : fin x - nan = nan := rfl

@[simp] theorem pinf_sub_fin (y : ℝ) : pinf - fin y = pinf := rfl

@[simp] theorem ninf_sub_fin (y : ℝ) : ninf - fin y = ninf := rfl

@[simp] theorem fin_mul_fin (x y : ℝ) : fin x * fin y = fin (x * y) := rfl

@[simp] theorem fin_mul_nan (x : ℝ) : fin x * nan = nan := rfl

theorem fin_mul_pinf_of_pos {y : ℝ} (hy : 0 < y) : fin y * pinf = pinf := by
  show mul (fin y) pinf = pinf
  simp [mul, hy]

theorem fin_mul_pinf_of_neg {y : ℝ} (hy : y < 0) : fin y * pinf = ninf := by
  show mul (fin y) pinf = ninf
  simp [mul, hy, not_lt_of_gt hy]

theorem fin_mul_pinf_of_zero : fin 0 * pinf = nan := by
  show mul (fin 0) pinf = nan
  simp [mul]

theorem fin_mul_ninf_of_pos {y : ℝ} (hy : 0 < y) : fin y * ninf = ninf := by
  show mul (fin y) ninf = ninf
  simp [mul, hy]

theorem fin_mul_ninf_of_neg {y : ℝ} (hy : y < 0) : fin y * ninf = pinf := by
  show mul (fin y) ninf = pinf
  simp [mul, hy, not_lt_of_gt hy]

theorem fin_mul_ninf_of_zero : fin 0 * ninf = nan := by
  show mul (fin 0) ninf = nan
  simp [mul]

theorem fin_div_fin {y : ℝ} (x : ℝ) (hy : y ≠ 0) : fin x / fin y = fin (x / y) := by
  show div (fin x) (fin y) = fin (x / y)
  simp [div, hy]

theorem fin_div_zero_of_pos {x : ℝ} (hx : 0 < x) : fin x / fin 0 = pinf := by
  show div (fin x) (fin 0) = pinf
  simp [div, hx.ne', hx]

theorem fin_div_zero_of_neg {x : ℝ} (hx : x < 0) : fin x / fin 0 = ninf := by
  show div (fin x) (fin 0) = ninf
  simp [div, hx.ne, not_lt_of_gt hx]

theorem zero_div_zero : fin 0 / fin 0 = nan := by
  show div (fin 0) (fin 0) = nan
  simp [div]

@[simp] theorem pinf_div_fin_of_nonneg {y : ℝ} (hy : 0 ≤ y) : pinf / fin y = pinf := by
  show div pinf (fin y) = pinf
  simp [div, hy]

theorem pinf_div_fin_of_neg {y : ℝ} (hy : y < 0) : pinf / fin y = ninf := by
  show div pinf (fin y) = ninf
  simp [div, not_le_of_gt hy]

@[simp] theorem ninf_div_fin_of_nonneg {y : ℝ} (hy : 0 ≤ y) : ninf / fin y = ninf := by
  show div ninf (fin y) = ninf
  simp [div, hy]

theorem ninf_div_fin_of_neg {y : ℝ} (hy : y < 0) : ninf / fin y = pinf := by
  show div ninf (fin y) = pinf
  simp [div, not_le_of_gt hy]

@[simp] theorem nan_div (x : Fp) : nan / x = nan := by
  show div nan x = nan
  cases x <;> rfl

@[simp] theorem pow_fin_zero (x : Fp) : x ^ fin 0 = fin 1 := by
  show pow x (fin 0) = fin 1
  cases x <;> simp [pow]

theorem fin_pow_fin_of_pos {x : ℝ} (y : ℝ) (hx : 0 < x) :
    fin x ^ fin y = fin (x ^ y) := by
  show pow (fin x) (fin y) = fin (x ^ y)
  rcases eq_or_ne y 0 with rfl | hy
  · simp [pow, Real.rpow_zero]
  · simp [pow, hy, hx]

theorem zero_pow_fin_of_pos {y : ℝ} (hy : 0 < y) : fin 0 ^ fin y = fin 0 := by
  show pow (fin 0) (fin y) = fin 0
  simp [pow, hy.ne', hy]

theorem zero_pow_fin_of_neg {y : ℝ} (hy : y < 0) : fin 0 ^ fin y = pinf := by
  show pow (fin 0) (fin y) = pinf
  simp [pow, hy.ne, not_lt_of_gt hy]

theorem pinf_pow_fin_of_pos {y : ℝ} (hy : 0 < y) : pinf ^ fin y = pinf := by
  show pow pinf (fin y) = pinf
  simp [pow, hy.ne', hy]

theorem pinf_pow_fin_of_neg {y : ℝ} (hy : y < 0) : pinf ^ fin y = fin 0 := by
  show pow pinf (fin y) = fin 0
  simp [pow, hy.ne, not_lt_of_gt hy]

theorem nan_pow_fin_of_ne {y : ℝ} (hy : y ≠ 0) : nan ^ fin y = nan := by
  show pow nan (fin y) = nan
  simp [pow, hy]

theorem ninf_pow_fin_special {y : ℝ} (hy : 0 < y) : (ninf ^ fin y).special := by
  show (pow ninf (fin y)).special
  simp only [pow, hy.ne', if_false, hy, if_true]
  split
  · exact Or.inr (Or.inl rfl)
  · exact Or.inl rfl

/-- IEEE `pow` with base exactly 1 yields 1 for every exponent, NaN and
infinities included. -/
theorem one_pow_any (e : Fp) : fin 1 ^ e = fin 1 := by
  show pow (fin 1) e = fin 1
  cases e with
  | fin y =>
    rcases eq_or_ne y 0 with rfl | hy
    · simp [pow]
    · simp [pow, hy, Real.one_rpow]
  | nan => simp [pow]
  | pinf => simp [pow]
  | ninf => simp [pow]

end Fp

/-!
## Claim C2 — multivariate virgin-curve round trip
-/

/-- C2 counterexample: the claim quantifies over all coefficients `B`
with only `a3 ≠ 0` required, but at `B = 0` the round trip fails: with
`sigma = 2`, `phi = vsh = 0`, `a0 = a1 = a2 = 0`, `a3 = 1`, the forward
relation gives `1 * 2**0 = 1` and the inversion computes
`1 ** (1/0) = 1 ** inf = 1 ≠ 2` (numpy: `1/0` warns and yields `inf`,
`1 ** inf = 1`). -/
theorem multivariate_roundtrip_cex :
    invert_multivariate_virgin
      (multivariate_virgin (Fp.fin 2) (Fp.fin 0) (Fp.fin 0) (Fp.fin 0) (Fp.fin 0) (Fp.fin 0)
        (Fp.fin 1) (Fp.fin 0))
      (Fp.fin 0) (Fp.fin 0) (Fp.fin 0) (Fp.fin 0) (Fp.fin 0) (Fp.fin 1) (Fp.fin 0) ≠
      Fp.fin 2 := by
  have h1 : multivariate_virgin (Fp.fin 2) (Fp.fin 0) (Fp.fin 0) (Fp.fin 0) (Fp.fin 0) (Fp.fin 0)
      (Fp.fin 1) (Fp.fin 0) = Fp.fin 1 := by
    simp [multivariate_virgin]
  rw [invert_multivariate_virgin, h1]
  rw [Fp.fin_div_zero_of_pos one_pos]
  simp only [Fp.fin_mul_fin, Fp.fin_sub_fin, Fp.fin_add_fin]
  rw [show (1 : ℝ) - 0 + 0 * 0 + 0 * 0 = 1 by ring]
  rw [Fp.fin_div_fin _ one_ne_zero, show (1 : ℝ) / 1 = 1 by norm_num, Fp.one_pow_any]
  simp

/-- C2 (amended: additionally require `B ≠ 0`): for every `sigma ≥ 0`,
every `phi`, `vsh` and coefficients with `a3 ≠ 0` and `B ≠ 0`,
`invert_multivariate_virgin (multivariate_virgin sigma ...) ...`
returns `sigma` exactly. -/
theorem multivariate_roundtrip (σ phi vsh a0 a1 a2 a3 B : ℝ)
    (hσ : 0 ≤ σ) (ha3 : a3 ≠ 0) (hB : B ≠ 0) :
    invert_multivariate_virgin
      (multivariate_virgin (Fp.fin σ) (Fp.fin phi) (Fp.fin vsh) (Fp.fin a0) (Fp.fin a1)
        (Fp.fin a2) (Fp.fin a3) (Fp.fin B))
      (Fp.fin phi) (Fp.fin vsh) (Fp.fin a0) (Fp.fin a1) (Fp.fin a2) (Fp.fin a3) (Fp.fin B) =
      Fp.fin σ := by
  rcases hσ.lt_or_eq with hσ' | hσ'
  · -- sigma > 0: everything stays finite and the real algebra cancels.
    rw [multivariate_virgin, invert_multivariate_virgin]
    rw [Fp.fin_pow_fin_of_pos B hσ']
    simp only [Fp.fin_mul_fin, Fp.fin_sub_fin, Fp.fin_add_fin]
    rw [show a0 - a1 * phi - a2 * vsh + a3 * σ ^ B - a0 + a1 * phi + a2 * vsh = a3 * σ ^ B
      by ring]
    rw [Fp.fin_div_fin _ ha3, mul_div_cancel_left₀ _ ha3, Fp.fin_div_fin _ hB]
    rw [Fp.fin_pow_fin_of_pos _ (Real.rpow_pos_of_pos hσ' B)]
    congr 1
    rw [← Real.rpow_mul hσ, show B * (1 / B) = 1 by field_simp, Real.rpow_one]
  · -- sigma = 0.
    rcases hB.lt_or_lt with hB' | hB'
    · -- B < 0: `0 ** B = inf`; the infinity flows through and
      -- `(±inf) ** (1/B) = 0 = sigma`.
      rw [multivariate_virgin, invert_multivariate_virgin, ← hσ']
      rw [Fp.zero_pow_fin_of_neg hB']
      simp only [Fp.fin_mul_fin, Fp.fin_sub_fin]
      rcases ha3.lt_or_lt with ha' | ha'
      · rw [Fp.fin_mul_pinf_of_neg ha', Fp.fin_add_ninf, Fp.ninf_sub_fin,
          Fp.ninf_add_fin, Fp.ninf_add_fin, Fp.ninf_div_fin_of_neg ha',
          Fp.fin_div_fin _ hB]
        rw [Fp.pinf_pow_fin_of_neg (one_div_neg.mpr hB')]
      · rw [Fp.fin_mul_pinf_of_pos ha', Fp.fin_add_pinf, Fp.pinf_sub_fin,
          Fp.pinf_add_fin, Fp.pinf_add_fin, Fp.pinf_div_fin_of_nonneg ha'.le,
          Fp.fin_div_fin _ hB]
        rw [Fp.pinf_pow_fin_of_neg (one_div_neg.mpr hB')]
    · -- B > 0: `0 ** B = 0` and the finite algebra cancels to `0`.
      rw [multivariate_virgin, invert_multivariate_virgin, ← hσ']
      rw [Fp.zero_pow_fin_of_pos hB']
      simp only [Fp.fin_mul_fin, Fp.fin_sub_fin, Fp.fin_add_fin]
      rw [show a0 - a1 * phi - a2 * vsh + a3 * 0 - a0 + a1 * phi + a2 * vsh = 0 by ring]
      rw [Fp.fin_div_fin _ ha3, zero_div, Fp.fin_div_fin _ hB]
      rw [Fp.zero_pow_fin_of_pos (one_div_pos.mpr hB')]

/-- C1 counterexample: with `v = vn = [1]`, `hydrostatic = [1]`,
`lithostatic = [2]` and `n = 1`, `eaton` returns
`[2 - (2 - 1) * 1**1] = [1]`, the hydrostatic value — not the
lithostatic `[2]` the claim asserts. -/
theorem eaton_identity_cex :
    eaton [Fp.fin 1] [Fp.fin 1] [Fp.fin 1] [Fp.fin 2] (Fp.fin 1) ≠ [Fp.fin 2] := by
  have helt : eaton_elt (Fp.fin 1) (Fp.fin 1) (Fp.fin 1) (Fp.fin 2) (Fp.fin 1) = Fp.fin 1 := by
    rw [eaton_elt, eaton_ves, Fp.fin_div_fin _ one_ne_zero,
      show (1 : ℝ) / 1 = 1 by norm_num, Fp.one_pow_any]
    simp only [Fp.fin_sub_fin, Fp.fin_mul_fin]
    norm_num
  have h : eaton [Fp.fin 1] [Fp.fin 1] [Fp.fin 1] [Fp.fin 2] (Fp.fin 1) = [Fp.fin 1] := by
    rw [eaton, helt]
    rfl
  rw [h]
  intro hc
  have := List.head_eq_of_cons_eq hc
  rw [Fp.fin.injEq] at this
  norm_num at this

/-- C1 (amended: the result is the *hydrostatic* array, not the
lithostatic one, and the claim needs `vn` nonzero — at an index with
`v = vn = 0` numpy computes `0/0 = NaN`, not `1`): for equal-length
finite arrays with `v == vn` elementwise, `vn` nonzero everywhere, and
*every* exponent `n` (even NaN or ±∞, since IEEE `1 ** n = 1`),
`eaton(v, vn, hydrostatic, lithostatic, n) == hydrostatic`. -/
theorem eaton_identity (vr hr lr : List ℝ) (n : Fp)
    (h1 : vr.length = hr.length) (h2 : vr.length = lr.length)
    (hnz : ∀ x ∈ vr, x ≠ 0) :
    eaton (vr.map Fp.fin) (vr.map Fp.fin) (hr.map Fp.fin) (lr.map Fp.fin) n =
      hr.map Fp.fin := by
  induction vr generalizing hr lr with
  | nil =>
    cases hr with
    | nil => cases lr <;> simp [eaton]
    | cons y ys => simp at h1
  | cons x xs ih =>
    cases hr with
    | nil => simp at h1
    | cons y ys =>
      cases lr with
      | nil => simp at h2
      | cons z zs =>
        have hx : x ≠ 0 := hnz x (List.mem_cons_self _ _)
        have helt : eaton_elt (Fp.fin x) (Fp.fin x) (Fp.fin y) (Fp.fin z) n = Fp.fin y := by
          rw [eaton_elt, eaton_ves, Fp.fin_div_fin _ hx, div_self hx, Fp.one_pow_any]
          simp only [Fp.fin_sub_fin, Fp.fin_mul_fin]
          rw [mul_one, sub_sub_cancel]
        simp only [List.map_cons, eaton, helt, List.cons.injEq, true_and]
        exact ih ys zs (by simpa using h1) (by simpa using h2)
          (fun a ha => hnz a (List.mem_cons_of_mem _ ha))

/-- C1 witness: the amended identity at `v = vn = [2, 7]`,
`hydrostatic = [1, 3]`, `lithostatic = [5, 6]`, `n = 3`. -/
theorem eaton_identity_witness :
    ([2, 7] : List ℝ).length = ([1, 3] : List ℝ).length ∧
    ([2, 7] : List ℝ).length = ([5, 6] : List ℝ).length ∧
    (∀ x ∈ ([2, 7] : List ℝ), x ≠ 0) ∧
    eaton ([2, 7].map Fp.fin) ([2, 7].map Fp.fin) ([1, 3].map Fp.fin) ([5, 6].map Fp.fin)
      (Fp.fin 3) = [1, 3].map Fp.fin :=
  ⟨rfl, rfl, by norm_num,
    eaton_identity [2, 7] [1, 3] [5, 6] (Fp.fin 3) rfl rfl (by norm_num)⟩

/-- C7: at a sample where `v / vn = 9/10` and `lithostatic >
hydrostatic`, the effective stress `(lithostatic - hydrostatic) *
(v/vn)**n` computed by `eaton` with `n = 5` is strictly smaller than
with `n = 1`, and the returned pressure `lithostatic - ves` with `n = 5`
is strictly larger than with `n = 1`. -/
theorem eaton_exponent_monotone (v vn h l : ℝ) (hvn : vn ≠ 0)
    (hr : v / vn = 9 / 10) (hlh : h < l) :
    ∃ s1 s5 : ℝ,
      eaton_ves (Fp.fin v) (Fp.fin vn) (Fp.fin h) (Fp.fin l) (Fp.fin 1) = Fp.fin s1 ∧
      eaton_ves (Fp.fin v) (Fp.fin vn) (Fp.fin h) (Fp.fin l) (Fp.fin 5) = Fp.fin s5 ∧
      s5 < s1 ∧
      eaton_elt (Fp.fin v) (Fp.fin vn) (Fp.fin h) (Fp.fin l) (Fp.fin 1) = Fp.fin (l - s1) ∧
      eaton_elt (Fp.fin v) (Fp.fin vn) (Fp.fin h) (Fp.fin l) (Fp.fin 5) = Fp.fin (l - s5) ∧
      l - s1 < l - s5 := by
  have hdiv : Fp.fin v / Fp.fin vn = Fp.fin (9 / 10) := by
    rw [Fp.fin_div_fin _ hvn, hr]
  have hbase : (0 : ℝ) < 9 / 10 := by norm_num
  have hves1 : eaton_ves (Fp.fin v) (Fp.fin vn) (Fp.fin h) (Fp.fin l) (Fp.fin 1) =
      Fp.fin ((l - h) * (9 / 10 : ℝ) ^ (1 : ℝ)) := by
    rw [eaton_ves, hdiv, Fp.fin_pow_fin_of_pos 1 hbase]
    simp only [Fp.fin_sub_fin, Fp.fin_mul_fin]
  have hves5 : eaton_ves (Fp.fin v) (Fp.fin vn) (Fp.fin h) (Fp.fin l) (Fp.fin 5) =
      Fp.fin ((l - h) * (9 / 10 : ℝ) ^ (5 : ℝ)) := by
    rw [eaton_ves, hdiv, Fp.fin_pow_fin_of_pos 5 hbase]
    simp only [Fp.fin_sub_fin, Fp.fin_mul_fin]
  have hlt : (l - h) * (9 / 10 : ℝ) ^ (5 : ℝ) < (l - h) * (9 / 10 : ℝ) ^ (1 : ℝ) :=
    mul_lt_mul_of_pos_left
      (Real.rpow_lt_rpow_of_exponent_gt hbase (by norm_num) (by norm_num))
      (by linarith)
  refine ⟨_, _, hves1, hves5, hlt, ?_, ?_, ?_⟩
  · rw [eaton_elt, hves1, Fp.fin_sub_fin]
  · rw [eaton_elt, hves5, Fp.fin_sub_fin]
  · exact sub_lt_sub_left hlt l

/-- C7 witness: the monotonicity at `v = 9`, `vn = 10`, `hydrostatic =
0`, `lithostatic = 1`. -/
theorem eaton_exponent_monotone_witness :
    (10 : ℝ) ≠ 0 ∧ (9 : ℝ) / 10 = 9 / 10 ∧ (0 : ℝ) < 1 ∧
    (∃ s1 s5 : ℝ,
      eaton_ves (Fp.fin 9) (Fp.fin 10) (Fp.fin 0) (Fp.fin 1) (Fp.fin 1) = Fp.fin s1 ∧
      eaton_ves (Fp.fin 9) (Fp.fin 10) (Fp.fin 0) (Fp.fin 1) (Fp.fin 5) = Fp.fin s5 ∧
      s5 < s1 ∧
      eaton_elt (Fp.fin 9) (Fp.fin 10) (Fp.fin 0) (Fp.fin 1) (Fp.fin 1) = Fp.fin (1 - s1) ∧
      eaton_elt (Fp.fin 9) (Fp.fin 10) (Fp.fin 0) (Fp.fin 1) (Fp.fin 5) = Fp.fin (1 - s5) ∧
      1 - s1 < 1 - s5) :=
  ⟨by norm_num, by norm_num, by norm_num,
    eaton_exponent_monotone 9 10 0 1 (by norm_num) (by norm_num) (by norm_num)⟩

theorem div_zero_special (x : Fp) : (x / Fp.fin 0).special := by
  cases x with
  | nan => simp [Fp.special]
  | pinf => rw [Fp.pinf_div_fin_of_nonneg le_rfl]; exact Or.inl rfl
  | ninf => rw [Fp.ninf_div_fin_of_nonneg le_rfl]; exact Or.inr (Or.inl rfl)
  | fin x =>
    rcases lt_trichotomy x 0 with hx | rfl | hx
    · rw [Fp.fin_div_zero_of_neg hx]; exact Or.inr (Or.inl rfl)
    · rw [Fp.zero_div_zero]; exact Or.inr (Or.inr rfl)
    · rw [Fp.fin_div_zero_of_pos hx]; exact Or.inl rfl

theorem special_pow_fin {q : Fp} (hq : q.special) {n : ℝ} (hn : 0 < n) :
    (q ^ Fp.fin n).special := by
  rcases hq with rfl | rfl | rfl
  · rw [Fp.pinf_pow_fin_of_pos hn]; exact Or.inl rfl
  · exact Fp.ninf_pow_fin_special hn
  · rw [Fp.nan_pow_fin_of_ne hn.ne']; exact Or.inr (Or.inr rfl)

theorem fin_mul_special (d : ℝ) {q : Fp} (hq : q.special) : (Fp.fin d * q).special := by
  rcases hq with rfl | rfl | rfl
  · rcases lt_trichotomy d 0 with hd | rfl | hd
    · rw [Fp.fin_mul_pinf_of_neg hd]; exact Or.inr (Or.inl rfl)
    · rw [Fp.fin_mul_pinf_of_zero]; exact Or.inr (Or.inr rfl)
    · rw [Fp.fin_mul_pinf_of_pos hd]; exact Or.inl rfl
  · rcases lt_trichotomy d 0 with hd | rfl | hd
    · rw [Fp.fin_mul_ninf_of_neg hd]; exact Or.inl rfl
    · rw [Fp.fin_mul_ninf_of_zero]; exact Or.inr (Or.inr rfl)
    · rw [Fp.fin_mul_ninf_of_pos hd]; exact Or.inr (Or.inl rfl)
  · rw [Fp.fin_mul_nan]; exact Or.inr (Or.inr rfl)

theorem fin_sub_special (l : ℝ) {w : Fp} (hw : w.special) : (Fp.fin l - w).special := by
  rcases hw with rfl | rfl | rfl
  · rw [Fp.fin_sub_pinf]; exact Or.inr (Or.inl rfl)
  · rw [Fp.fin_sub_ninf]; exact Or.inl rfl
  · rw [Fp.fin_sub_nan]; exact Or.inr (Or.inr rfl)

/-- At a sample whose trend velocity is zero, the `eaton` sample value is
non-finite whatever the velocity value is, for any positive exponent. -/
theorem eaton_elt_zero_vn_special (x : Fp) (hh ll : ℝ) {n : ℝ} (hn : 0 < n) :
    (eaton_elt x (Fp.fin 0) (Fp.fin hh) (Fp.fin ll) (Fp.fin n)).special := by
  rw [eaton_elt, eaton_ves, Fp.fin_sub_fin]
  exact fin_sub_special ll (fin_mul_special (ll - hh)
    (special_pow_fin (div_zero_special x) hn))

theorem eaton_length (n : Fp) : ∀ (v vn h l : List Fp),
    vn.length = v.length → h.length = v.length → l.length = v.length →
    (eaton v vn h l n).length = v.length := by
  intro v
  induction v with
  | nil =>
    intro vn h l h1 h2 h3
    rw [List.length_eq_zero.mp h1, List.length_eq_zero.mp h2, List.length_eq_zero.mp h3]
    rfl
  | cons x xs ih =>
    intro vn h l h1 h2 h3
    cases vn with
    | nil => simp at h1
    | cons y ys =>
      cases h with
      | nil => simp at h2
      | cons z zs =>
        cases l with
        | nil => simp at h3
        | cons w ws =>
          simp only [eaton, List.length_cons, Nat.succ.injEq] at h1 h2 h3 ⊢
          exact ih ys zs ws h1 h2 h3

theorem eaton_getElem (n : Fp) : ∀ (i : ℕ) (v vn h l : List Fp),
    vn.length = v.length → h.length = v.length → l.length = v.length → i < v.length →
    (eaton v vn h l n)[i]? =
      some (eaton_elt (v[i]?.getD Fp.nan) (vn[i]?.getD Fp.nan) (h[i]?.getD Fp.nan)
        (l[i]?.getD Fp.nan) n) := by
  intro i v
  induction v generalizing i with
  | nil =>
    intro vn h l _ _ _ hi
    simp at hi
  | cons x xs ih =>
    intro vn h l h1 h2 h3 hi
    cases vn with
    | nil => simp at h1
    | cons y ys =>
      cases h with
      | nil => simp at h2
      | cons z zs =>
        cases l with
        | nil => simp at h3
        | cons w ws =>
          cases i with
          | zero => simp [eaton]
          | succ j =>
            simp only [eaton, List.getElem?_cons_succ]
            exact ih j ys zs ws (by simpa using h1) (by simpa using h2) (by simpa using h3)
              (by simpa using hi)

/-- C8 counterexample: at `v = [2]`, `vn = [0]`, `hydrostatic = [1]`,
`lithostatic = [3]`, `n = 3`, numpy computes `2/0 = +inf` (with a
warning), `inf**3 = inf`, `(3-1)*inf = inf`, `3 - inf = -inf`: the value
at the `vn == 0` index is negative infinity, which is *not*
not-a-number. -/
theorem eaton_zero_vn_cex :
    eaton [Fp.fin 2] [Fp.fin 0] [Fp.fin 1] [Fp.fin 3] (Fp.fin 3) = [Fp.ninf] ∧
    Fp.ninf ≠ Fp.nan := by
  constructor
  · have helt : eaton_elt (Fp.fin 2) (Fp.fin 0) (Fp.fin 1) (Fp.fin 3) (Fp.fin 3) = Fp.ninf := by
      rw [eaton_elt, eaton_ves, Fp.fin_div_zero_of_pos (by norm_num : (0 : ℝ) < 2),
        Fp.pinf_pow_fin_of_pos (by norm_num : (0 : ℝ) < 3), Fp.fin_sub_fin,
        Fp.fin_mul_pinf_of_pos (by norm_num : (0 : ℝ) < 3 - 1), Fp.fin_sub_pinf]
    rw [eaton, helt]
    rfl
  · exact fun hc => Fp.noConfusion hc

/-- C8 (amended: the value at a `vn == 0` index is *non-finite* — NaN
when `v = 0` there or when `lithostatic = hydrostatic` there, and ±∞
otherwise — rather than always NaN; and a positive exponent is required,
since e.g. `n = 0` gives `(v/0)**0 = 1` and a finite result): for
equal-length arrays with finite hydrostatic and lithostatic entries and
exponent `n > 0`, if `vn` is zero at index `i` then `eaton` still
returns an array of the same length, and its value at `i` is
non-finite. -/
theorem eaton_zero_vn_nonfinite (v vn h l : List Fp) (i : ℕ) (n hh ll : ℝ)
    (hn : 0 < n)
    (h1 : vn.length = v.length) (h2 : h.length = v.length) (h3 : l.length = v.length)
    (hvn : vn[i]? = some (Fp.fin 0)) (hhy : h[i]? = some (Fp.fin hh))
    (hli : l[i]? = some (Fp.fin ll)) :
    (eaton v vn h l (Fp.fin n)).length = v.length ∧
    ∃ z, (eaton v vn h l (Fp.fin n))[i]? = some z ∧ ¬ z.isFin := by
  have hi : i < v.length := by
    rw [← h1]
    by_contra hlt
    rw [List.getElem?_eq_none (le_of_not_lt hlt)] at hvn
    exact Option.noConfusion hvn
  refine ⟨eaton_length (Fp.fin n) v vn h l h1 h2 h3, ?_⟩
  rw [eaton_getElem (Fp.fin n) i v vn h l h1 h2 h3 hi, hvn, hhy, hli]
  simp only [Option.getD_some]
  exact ⟨_, rfl, Fp.not_isFin_of_special
    (eaton_elt_zero_vn_special (v[i]?.getD Fp.nan) hh ll hn)⟩

/-- C8 witness: the amended claim at `v = [2]`, `vn = [0]`,
`hydrostatic = [1]`, `lithostatic = [3]`, `n = 3`, index 0. -/
theorem eaton_zero_vn_nonfinite_witness :
    (0 : ℝ) < 3 ∧
    ([Fp.fin 0] : List Fp)[0]? = some (Fp.fin 0) ∧
    ([Fp.fin 1] : List Fp)[0]? = some (Fp.fin 1) ∧
    ([Fp.fin 3] : List Fp)[0]? = some (Fp.fin 3) ∧
    ((eaton [Fp.fin 2] [Fp.fin 0] [Fp.fin 1] [Fp.fin 3] (Fp.fin 3)).length =
      ([Fp.fin 2] : List Fp).length ∧
    ∃ z, (eaton [Fp.fin 2] [Fp.fin 0] [Fp.fin 1] [Fp.fin 3] (Fp.fin 3))[0]? = some z ∧
      ¬ z.isFin) :=
  ⟨by norm_num, rfl, rfl, rfl,
    eaton_zero_vn_nonfinite [Fp.fin 2] [Fp.fin 0] [Fp.fin 1] [Fp.fin 3] 0 3 1 3
      (by norm_num) rfl rfl rfl rfl rfl rfl⟩

theorem bowersFrom_all_loading (u : Fp) (fe_idx : ℕ) (a b sm : Fp) :
    ∀ (v obp : List Fp) (i : ℕ), i + min v.length obp.length ≤ fe_idx →
    bowersFrom u fe_idx a b sm i v obp =
      List.zipWith (fun vi oi => oi - bowers_ves vi a b) v obp := by
  intro v
  induction v with
  | nil => intro obp i _; cases obp <;> rfl
  | cons x xs ih =>
    intro obp i hle
    cases obp with
    | nil => rfl
    | cons o os =>
      simp only [List.length_cons, Nat.succ_min_succ] at hle
      have hub : i < fe_idx := by omega
      simp only [bowersFrom, if_pos hub, List.zipWith_cons_cons]
      exact congrArg _ (ih os (i + 1) (by omega))

/-- C5: with `fe_idx = len(v)` (no unloaded sample), `bowers` returns
`obp` minus the pure loading-branch (virgin-curve inverse) effective
stress `((v - 1524)/a)**(1/b)` at every sample: the unloading branch has
no effect. -/
theorem bowers_no_unloading (v obp : List Fp) (u a b vmax : Fp)
    (hlen : v.length = obp.length) :
    bowers v obp u v.length a b vmax =
      List.zipWith (fun vi oi => oi - ((vi - Fp.fin 1524) / a) ^ (Fp.fin 1 / b)) v obp := by
  rw [bowers]
  rw [bowersFrom_all_loading u v.length a b _ v obp 0 (by omega)]
  simp only [bowers_ves]

/-- C5 witness: a one-sample instance. -/
theorem bowers_no_unloading_witness :
    ([Fp.fin 2000] : List Fp).length = ([Fp.fin 50] : List Fp).length ∧
    bowers [Fp.fin 2000] [Fp.fin 50] (Fp.fin 2) ([Fp.fin 2000] : List Fp).length (Fp.fin 1)
      (Fp.fin 1) (Fp.fin 3000) =
      List.zipWith (fun vi oi => oi - ((vi - Fp.fin 1524) / Fp.fin 1) ^ (Fp.fin 1 / Fp.fin 1))
        [Fp.fin 2000] [Fp.fin 50] :=
  ⟨rfl, bowers_no_unloading [Fp.fin 2000] [Fp.fin 50] (Fp.fin 2) (Fp.fin 1) (Fp.fin 1)
    (Fp.fin 3000) rfl⟩

/-- C6 counterexample: the claim only requires `b ≠ 0`, but with
`b = -1` (and `a = 1`, `fe_idx = len(v) = 2`, `u = 1`, `vmax = 3000`) the
loading effective stress at `v = 1524` is `0 ** (1 / (-1)) = +inf`
(numpy warns and yields `inf`), so the pressure is `obp - inf = -inf`,
not `obp`. -/
theorem bowers_v0_cex :
    bowers [Fp.fin 1524, Fp.fin 1524] [Fp.fin 1, Fp.fin 2] (Fp.fin 1) 2 (Fp.fin 1)
      (Fp.fin (-1)) (Fp.fin 3000) ≠ [Fp.fin 1, Fp.fin 2] := by
  have hves : bowers_ves (Fp.fin 1524) (Fp.fin 1) (Fp.fin (-1)) = Fp.pinf := by
    rw [bowers_ves, Fp.fin_sub_fin, show (1524 : ℝ) - 1524 = 0 by norm_num,
      Fp.fin_div_fin _ one_ne_zero, zero_div,
      Fp.fin_div_fin _ (by norm_num : (-1 : ℝ) ≠ 0),
      Fp.zero_pow_fin_of_neg (by norm_num : (1 : ℝ) / (-1) < 0)]
  have h : bowers [Fp.fin 1524, Fp.fin 1524] [Fp.fin 1, Fp.fin 2] (Fp.fin 1) 2 (Fp.fin 1)
      (Fp.fin (-1)) (Fp.fin 3000) = [Fp.ninf, Fp.ninf] := by
    simp only [bowers, bowersFrom, Nat.zero_add]
    rw [if_pos (by norm_num : 0 < 2), if_pos (by norm_num : 1 < 2), hves, Fp.fin_sub_pinf,
      Fp.fin_sub_pinf]
  rw [h]
  intro hc
  exact Fp.noConfusion (List.head_eq_of_cons_eq hc)

/-- C6 (amended: the claim holds for `b > 0`, not for every `b ≠ 0` —
with `b < 0` the effective stress at `v = 1524` is `0 ** (1/b) = +inf` —
and, when some sample lies in the unloading branch, `u > 0` and
`vmax > 1524` are additionally needed so that `sigma_max > 0`): for
`v = [1524, 1524]`, any finite `obp = [p, q]`, `a > 0`, `b > 0`, and
either no unloaded sample (`fe_idx ≥ 2`) or `u > 0 ∧ vmax > 1524`,
`bowers` computes effective stress exactly 0 at every sample and returns
`obp` exactly. -/
theorem bowers_v0_obp (p q u a b vmax : ℝ) (fe_idx : ℕ)
    (ha : 0 < a) (hb : 0 < b)
    (h : 2 ≤ fe_idx ∨ (0 < u ∧ 1524 < vmax)) :
    bowers_ves (Fp.fin 1524) (Fp.fin a) (Fp.fin b) = Fp.fin 0 ∧
    bowers [Fp.fin 1524, Fp.fin 1524] [Fp.fin p, Fp.fin q] (Fp.fin u) fe_idx (Fp.fin a)
      (Fp.fin b) (Fp.fin vmax) = [Fp.fin p, Fp.fin q] := by
  have hves : bowers_ves (Fp.fin 1524) (Fp.fin a) (Fp.fin b) = Fp.fin 0 := by
    rw [bowers_ves, Fp.fin_sub_fin, show (1524 : ℝ) - 1524 = 0 by norm_num,
      Fp.fin_div_fin _ ha.ne', zero_div, Fp.fin_div_fin _ hb.ne',
      Fp.zero_pow_fin_of_pos (one_div_pos.mpr hb)]
  refine ⟨hves, ?_⟩
  have hval : ∀ i : ℕ, i < 2 →
      (if i < fe_idx then bowers_ves (Fp.fin 1524) (Fp.fin a) (Fp.fin b)
        else bowers_ves_fe (Fp.fin 1524) (Fp.fin a) (Fp.fin b) (Fp.fin u)
          (bowers_ves (Fp.fin vmax) (Fp.fin a) (Fp.fin b))) = Fp.fin 0 := by
    intro i hi2
    rcases h with h2 | ⟨hu, hv⟩
    · rw [if_pos (Nat.lt_of_lt_of_le hi2 h2)]
      exact hves
    · split
      · exact hves
      · have hsmpos : (0 : ℝ) < ((vmax - 1524) / a) ^ ((1 : ℝ) / b) :=
          Real.rpow_pos_of_pos (div_pos (by linarith) ha) _
        have hsm : bowers_ves (Fp.fin vmax) (Fp.fin a) (Fp.fin b) =
            Fp.fin (((vmax - 1524) / a) ^ ((1 : ℝ) / b)) := by
          rw [bowers_ves, Fp.fin_sub_fin, Fp.fin_div_fin _ ha.ne', Fp.fin_div_fin _ hb.ne',
            Fp.fin_pow_fin_of_pos _ (div_pos (by linarith) ha)]
        rw [bowers_ves_fe, hsm, hves, Fp.fin_div_fin _ hsmpos.ne', zero_div,
          Fp.zero_pow_fin_of_pos hu, Fp.fin_mul_fin, mul_zero]
  simp only [bowers, bowersFrom, Nat.zero_add]
  rw [hval 0 (by norm_num), hval 1 (by norm_num), Fp.fin_sub_fin, Fp.fin_sub_fin,
    sub_zero, sub_zero]

/-- C6 witness: the amended claim at `obp = [1, 2]`, `u = 1`, `a = 1`,
`b = 1`, `vmax = 3000`, `fe_idx = 2`. -/
theorem bowers_v0_obp_witness :
    (0 : ℝ) < 1 ∧ (0 : ℝ) < 1 ∧ (2 ≤ 2 ∨ ((0 : ℝ) < 1 ∧ (1524 : ℝ) < 3000)) ∧
    (bowers_ves (Fp.fin 1524) (Fp.fin 1) (Fp.fin 1) = Fp.fin 0 ∧
      bowers [Fp.fin 1524, Fp.fin 1524] [Fp.fin 1, Fp.fin 2] (Fp.fin 1) 2 (Fp.fin 1)
        (Fp.fin 1) (Fp.fin 3000) = [Fp.fin 1, Fp.fin 2]) :=
  ⟨by norm_num, by norm_num, Or.inl le_rfl,
    bowers_v0_obp 1 2 1 1 1 3000 2 (by norm_num) (by norm_num) (Or.inl le_rfl)⟩

/-- C2 witness: the amended round trip at `sigma = 4`, `phi = 1`,
`vsh = 2`, `a0 = 5`, `a1 = 6`, `a2 = 7`, `a3 = 2`, `B = 3`. -/
theorem multivariate_roundtrip_witness :
    (0 : ℝ) ≤ 4 ∧ (2 : ℝ) ≠ 0 ∧ (3 : ℝ) ≠ 0 ∧
    invert_multivariate_virgin
      (multivariate_virgin (Fp.fin 4) (Fp.fin 1) (Fp.fin 2) (Fp.fin 5) (Fp.fin 6) (Fp.fin 7)
        (Fp.fin 2) (Fp.fin 3))
      (Fp.fin 1) (Fp.fin 2) (Fp.fin 5) (Fp.fin 6) (Fp.fin 7) (Fp.fin 2) (Fp.fin 3) =
      Fp.fin 4 :=
  ⟨by norm_num, by norm_num, by norm_num,
    multivariate_roundtrip 4 1 2 5 6 7 2 3 (by norm_num) (by norm_num) (by norm_num)⟩

/-!
## Claims C3, C4, C10 — `Well._get_pressure`
-/

/-- C3: evaluating `_get_pressure` on a `Well` whose model parameters
contain *no* parameter set for the key: the lookup
`self.params[pres_key]["depth"]` (`well.py` line 168) sits *outside* the
`try` block, so the `KeyError` escapes uncaught and the call fails —
it does not report and return an empty `Log` as the spec states.  Only a
*present* record lacking `"coef"` takes the handled path (second
conjunct). -/
theorem get_pressure_missing_key_raises :
    get_pressure none [100, 200] [1, 2] 0 = GPResult.raised ∧
    get_pressure (some ⟨some [150], none⟩) [100, 200] [1, 2] 0 = GPResult.emptyLog :=
  ⟨rfl, rfl⟩

/-- `searchsorted` stays within `a` exactly when the probe is at most
some element of `a` (equivalently, at most the largest element). -/
theorem searchsorted_lt_length_iff (a : List ℚ) (dp : ℚ) :
    searchsorted a dp < a.length ↔ ∃ x ∈ a, dp ≤ x := by
  rw [searchsorted]
  constructor
  · intro hlt
    by_contra hex
    push_neg at hex
    have heq : a.countP (fun x => decide (x < dp)) = a.length :=
      List.countP_eq_length.mpr (fun x hx => by simpa using hex x hx)
    omega
  · rintro ⟨x, hx, hdx⟩
    have hle := List.countP_le_length (fun x => decide (x < dp)) (l := a)
    have hne : a.countP (fun x => decide (x < dp)) ≠ a.length := by
      intro heq
      have := List.countP_eq_length.mp heq x hx
      simp at this
      exact absurd hdx (not_le_of_lt this)
    omega

theorem gp_loop_eq_some (obp_depth hydro : List ℚ) (hd : ℚ) :
    ∀ L : List (ℚ × ℚ),
      (∀ p ∈ L.filter (fun p => decide (hd < p.1)),
        searchsorted obp_depth p.1 < hydro.length) →
      gp_loop obp_depth hydro hd L =
        some ((L.filter (fun p => decide (hd < p.1))).map Prod.fst,
          (L.filter (fun p => decide (hd < p.1))).map
            (fun p => (hydro[searchsorted obp_depth p.1]?).getD 0 * p.2)) := by
  intro L
  induction L with
  | nil => intro _; rfl
  | cons q rest ih =>
    intro hin
    obtain ⟨dp, co⟩ := q
    by_cases hdp : hd < dp
    · have hmem : (dp, co) ∈ ((dp, co) :: rest).filter (fun p => decide (hd < p.1)) := by
        rw [List.filter_cons_of_pos (by simpa using hdp)]
        exact List.mem_cons_self _ _
      have hidx : searchsorted obp_depth dp < hydro.length := hin _ hmem
      have hlook : hydro[searchsorted obp_depth dp]? =
          some hydro[searchsorted obp_depth dp] := List.getElem?_eq_getElem hidx
      have hrest : ∀ p ∈ rest.filter (fun p => decide (hd < p.1)),
          searchsorted obp_depth p.1 < hydro.length := by
        intro p hp
        refine hin p ?_
        rw [List.filter_cons_of_pos (by simpa using hdp)]
        exact List.mem_cons_of_mem _ hp
      rw [gp_loop, if_pos hdp, hlook, ih hrest,
        List.filter_cons_of_pos (by simpa using hdp), List.map_cons, List.map_cons, hlook]
      rfl
    · have hfil : ((dp, co) :: rest).filter (fun p => decide (hd < p.1)) =
          rest.filter (fun p => decide (hd < p.1)) :=
        List.filter_cons_of_neg (by simpa using hdp)
      rw [gp_loop, if_neg hdp, hfil]
      exact ih (hfil ▸ hin)

/-- C4: with an Overburden_Pressure depth array (sorted, the `Log`
invariant), its hydrostatic array, and a `{depth, coef}` parameter set,
whenever every retained lookup stays in bounds `_get_pressure` returns a
`Log` containing *exactly* the pairs with `dp > hydrodynamic`, each
mapped to `round3(hydro[searchsorted(obp_depth, dp)] * coef)` — the
leftmost insertion index, no interpolation. -/
theorem get_pressure_lookup (obp_depth hydro depth coef : List ℚ) (hd : ℚ)
    (hsorted : List.Sorted (· ≤ ·) obp_depth)
    (hin : ∀ p ∈ (depth.zip coef).filter (fun p => decide (hd < p.1)),
      searchsorted obp_depth p.1 < hydro.length) :
    get_pressure (some ⟨some depth, some coef⟩) obp_depth hydro hd =
      GPResult.log
        (((depth.zip coef).filter (fun p => decide (hd < p.1))).map Prod.fst)
        (((depth.zip coef).filter (fun p => decide (hd < p.1))).map
          (fun p => round3 ((hydro[searchsorted obp_depth p.1]?).getD 0 * p.2))) := by
  have hstep : get_pressure (some ⟨some depth, some coef⟩) obp_depth hydro hd =
      (match gp_loop obp_depth hydro hd (depth.zip coef) with
        | none => GPResult.raised
        | some (ds, vs) => GPResult.log ds (vs.map round3)) := rfl
  rw [hstep, gp_loop_eq_some obp_depth hydro hd (depth.zip coef) hin]
  simp only [List.map_map]
  rfl

/-- C4 witness: the spec's concrete example — overburden depths
`[100, 200, 300]`, hydrostatic `[1, 2, 3]`, one measurement at depth
`250` with coefficient `0.9`: the insertion index is `2`, so the value is
`3 * 0.9 = 2.7` (rounding to 3 decimals leaves it unchanged). -/
theorem get_pressure_lookup_witness :
    List.Sorted (· ≤ ·) ([100, 200, 300] : List ℚ) ∧
    searchsorted [100, 200, 300] 250 = 2 ∧
    get_pressure (some ⟨some [250], some [9 / 10]⟩) [100, 200, 300] [1, 2, 3] 0 =
      GPResult.log [250] [27 / 10] := by
  refine ⟨by decide, by decide, ?_⟩
  rw [get_pressure_lookup [100, 200, 300] [1, 2, 3] [250] [9 / 10] 0 (by decide) (by decide)]
  have hfil : (([(250 : ℚ)].zip [(9 / 10 : ℚ)]).filter (fun p => decide ((0 : ℚ) < p.1))) =
      [(250, 9 / 10)] := by
    simp
  rw [hfil]
  simp only [List.map_cons, List.map_nil]
  have hss : searchsorted [100, 200, 300] (250 : ℚ) = 2 := by decide
  have hval : round3 ((([1, 2, 3] : List ℚ)[searchsorted [100, 200, 300]
      ((250 : ℚ), (9 / 10 : ℚ)).1]?).getD 0 * ((250 : ℚ), (9 / 10 : ℚ)).2) = 27 / 10 := by
    rw [show ((250 : ℚ), (9 / 10 : ℚ)).1 = (250 : ℚ) from rfl, hss,
      show (([1, 2, 3] : List ℚ)[2]?).getD 0 = 3 by simp,
      show ((250 : ℚ), (9 / 10 : ℚ)).2 = (9 / 10 : ℚ) from rfl]
    rw [round3, rne]
    norm_num
  rw [hval]

theorem gp_loop_eq_none_iff (obp_depth hydro : List ℚ) (hd : ℚ) :
    ∀ L : List (ℚ × ℚ),
      gp_loop obp_depth hydro hd L = none ↔
      ∃ p ∈ L.filter (fun p => decide (hd < p.1)),
        hydro.length ≤ searchsorted obp_depth p.1 := by
  intro L
  induction L with
  | nil => simp [gp_loop]
  | cons q rest ih =>
    obtain ⟨dp, co⟩ := q
    by_cases hdp : hd < dp
    · rw [gp_loop, if_pos hdp, List.filter_cons_of_pos (by simpa using hdp)]
      cases hlook : hydro[searchsorted obp_depth dp]? with
      | none =>
        simp only [List.getElem?_eq_none_iff] at hlook
        constructor
        · intro _
          exact ⟨(dp, co), List.mem_cons_self _ _, hlook⟩
        · intro _
          rfl
      | some hv =>
        have hidx : searchsorted obp_depth dp < hydro.length := by
          by_contra hge
          rw [List.getElem?_eq_none (le_of_not_lt hge)] at hlook
          exact Option.noConfusion hlook
        cases hrec : gp_loop obp_depth hydro hd rest with
        | none =>
          constructor
          · intro _
            obtain ⟨p, hp, hple⟩ := ih.mp hrec
            exact ⟨p, List.mem_cons_of_mem _ hp, hple⟩
          · intro _
            rfl
        | some pr =>
          obtain ⟨ds, vs⟩ := pr
          constructor
          · intro hc
            exact Option.noConfusion hc
          · rintro ⟨p, hp, hple⟩
            rcases List.mem_cons.mp hp with rfl | hp'
            · exact absurd hidx (not_lt_of_le hple)
            · have hc := ih.mpr ⟨p, hp', hple⟩
              rw [hrec] at hc
              exact Option.noConfusion hc
    · rw [gp_loop, if_neg hdp, List.filter_cons_of_neg (by simpa using hdp)]
      exact ih

/-- C10: with a sorted overburden depth array and a same-length
hydrostatic array, `_get_pressure` returns without raising *iff* every
retained measurement depth is at most some overburden depth (i.e. at most
the deepest one); a measurement deeper than every overburden sample makes
`np.searchsorted` return `len(obp_depth)`, the lookup `hydro[idx]` raise
`IndexError`, and the call fail instead of returning a `Log`. -/
theorem get_pressure_bounds (obp_depth hydro depth coef : List ℚ) (hd : ℚ)
    (hsorted : List.Sorted (· ≤ ·) obp_depth)
    (hlen : hydro.length = obp_depth.length) :
    get_pressure (some ⟨some depth, some coef⟩) obp_depth hydro hd ≠ GPResult.raised ↔
      ∀ p ∈ (depth.zip coef).filter (fun p => decide (hd < p.1)),
        ∃ x ∈ obp_depth, p.1 ≤ x := by
  have hgp : get_pressure (some ⟨some depth, some coef⟩) obp_depth hydro hd =
      GPResult.raised ↔ gp_loop obp_depth hydro hd (depth.zip coef) = none := by
    cases hres : gp_loop obp_depth hydro hd (depth.zip coef) with
    | none => simp [get_pressure, hres]
    | some pr =>
      obtain ⟨ds, vs⟩ := pr
      simp [get_pressure, hres]
  rw [Ne, hgp, gp_loop_eq_none_iff]
  push_neg
  refine forall_congr' fun p => imp_congr_right fun _ => ?_
  rw [← searchsorted_lt_length_iff, hlen]

/-!
## Claim C9 — `Well.get_log` with `ref='sea'` and zero shift
-/

/-- C9 counterexample: with `kelly_bushing = 0` (so
`shift = int(0 // 0.1) = 0`) and a two-sample log, `get_log(_, ref='sea')`
does *not* return an all-NaN log: the assignment
`shift_data[:-0] = data[0:]` writes a length-2 array into the *empty*
slice `shift_data[:0]`, which numpy rejects with a broadcast
`ValueError`, so no `Log` is returned at all. -/
theorem get_log_sea_zero_shift_cex :
    get_log_sea [Fp.fin 1, Fp.fin 2] 0 = none := by
  rw [get_log_sea]
  norm_num

/-- C9 (amended: with shift 0 — `0 ≤ kelly_bushing < 0.1` — and a log of
at least two samples, `get_log(name, ref='sea')` *raises* a numpy
broadcast `ValueError` rather than returning a Log; zero shift still
does not act as the identity, but the claimed all-NaN `Log` is only
produced for logs of length ≤ 1, where the empty-slice assignment
broadcasts or is trivial). -/
theorem get_log_sea_zero_shift (data : List Fp) (kb : ℚ)
    (h0 : 0 ≤ kb) (h1 : kb < 1 / 10) (hlen : 2 ≤ data.length) :
    get_log_sea data kb = none := by
  have hsh : ⌊kb / (1 / 10)⌋ = 0 := by
    rw [Int.floor_eq_zero_iff]
    constructor
    · exact div_nonneg h0 (by norm_num)
    · rw [div_lt_one (by norm_num)]
      linarith
  rw [get_log_sea]
  simp only [hsh, lt_self_iff_false, if_false, if_pos rfl, le_refl, if_true, Int.toNat_zero,
    Nat.zero_min, List.drop_zero]
  rw [if_neg (by omega), if_neg (by omega)]

/-- C9 witness: the amended claim at `kelly_bushing = 0` on a two-sample
log. -/
theorem get_log_sea_zero_shift_witness :
    (0 : ℚ) ≤ 0 ∧ (0 : ℚ) < 1 / 10 ∧ 2 ≤ ([Fp.fin 1, Fp.fin 2] : List Fp).length ∧
    get_log_sea [Fp.fin 1, Fp.fin 2] 0 = none :=
  ⟨le_rfl, by norm_num, by norm_num,
    get_log_sea_zero_shift [Fp.fin 1, Fp.fin 2] 0 le_rfl (by norm_num) (by norm_num)⟩

/-- C10 witness: overburden depths `[100, 200, 300]` with hydrostatic
`[1, 2, 3]` and a single measurement at depth `400 > 300`: the call
raises. -/
theorem get_pressure_bounds_witness :
    List.Sorted (· ≤ ·) ([100, 200, 300] : List ℚ) ∧
    ([1, 2, 3] : List ℚ).length = ([100, 200, 300] : List ℚ).length ∧
    get_pressure (some ⟨some [400], some [1]⟩) [100, 200, 300] [1, 2, 3] 0 =
      GPResult.raised := by
  refine ⟨by decide, rfl, ?_⟩
  have h := get_pressure_bounds [100, 200, 300] [1, 2, 3] [400] [1] 0 (by decide) rfl
  exact not_ne_iff.mp (fun hne => absurd (h.mp hne) (by decide))

end
